import Mathlib

/-!
# ottodocs: the text splicer (`pkg/textfile/insert.go`) and the `ask` pipeline (`cmd/ask.go`)

A shallow embedding of the two pieces of logic of the repository:

* `textfile.InsertLine` and `textfile.InsertLinesAtIndices`, which split a text on `"\n"`,
  splice new lines into the slice of lines and join the slice again;
* the repository branch of `askCmd.Run`: open the memory index, load the repository, add every
  file, search, destroy the index, sort the fragments by score, join the fragments back to the
  repository files, and call the answer synthesiser.

Go values are modelled as follows.

* A Go `string` is a Lean `String`; `"\n"` is the one-character separator `'\n'`. A Go string
  is a sequence of bytes and the code cuts it only at the byte `0x0A`, which in UTF-8 occurs
  only as the character `'\n'`; every other byte or character is carried along unread.
* A Go `int` is an `Int`. Every arithmetic expression of the embedded code is guarded by a bounds
  test against a slice length, so no 64-bit wrap-around can occur and none is modelled.
* A Go `[]string` is a `List String`. A slice expression `s[:k]` or `s[k:]` that is out of range
  is a run-time panic; the embedding makes that outcome explicit (`Outcome.panic`).
* A Go `(string, error)` result is an `Outcome`: a value, an error, or a panic.
-/

namespace strings

/-- The scan behind `strings.Split(s, sep)` for a one-byte separator: the text before the first
separator, and the list of pieces after it. -/
def splitAux (sep : Char) : List Char → List Char × List (List Char)
  | [] => ([], [])
  | c :: cs =>
    if c = sep then ([], (splitAux sep cs).1 :: (splitAux sep cs).2)
    else (c :: (splitAux sep cs).1, (splitAux sep cs).2)

/-- Go `strings.Split(s, sep)` for a one-byte separator `sep`: the pieces of `s` between
consecutive separators. The result always has `Count(s, sep) + 1` elements, so it is never
empty: `Split("", "\n")` is `[""]`. -/
def Split (s : String) (sep : Char) : List String :=
  ((splitAux sep s.data).1 :: (splitAux sep s.data).2).map String.mk

/-- Go `strings.Join(elems, sep)`. -/
def Join : List String → String → String
  | [], _ => ""
  | [a], _ => a
  | a :: b :: rest, sep => a ++ sep ++ Join (b :: rest) sep

end strings

namespace textfile

/-- The errors built with `fmt.Errorf` in `insert.go`, one constructor per message. -/
inductive Err where
  /-- The text "line number must be greater than or equal to 1". -/
  | lineNumberTooSmall
  /-- The text "line number is greater than the number of lines in the code". -/
  | lineNumberTooLarge
  /-- The text "the length of indices and linesToInsert must be the same". -/
  | lengthMismatch
  /-- The text "index %d is out of bounds", with the offending index. -/
  | indexOutOfBounds (index : Int)
  deriving DecidableEq, Repr

/-- What a call can do: return a value with a nil error, return an error, or panic. -/
inductive Outcome (α : Type) where
  | ok (value : α)
  | err (e : Err)
  | panic
  deriving DecidableEq, Repr

/-- The expression `append(lines[:k], append([]string{x}, lines[k:]...)...)`.

`lines[k:]` is in range exactly when `0 ≤ k ≤ len(lines)`, and `lines[:k]` exactly when
`0 ≤ k ≤ cap(lines)`; as `len ≤ cap`, one of the two panics exactly when `k < 0` or
`k > len(lines)`, whatever the capacity. The inner `append` copies `lines[k:]` behind a fresh
one-element slice before the outer `append` writes, so the value is `lines[:k] ++ [x] ++ lines[k:]`.
`none` stands for the panic. -/
def spliceAt (lines : List String) (k : Int) (x : String) : Option (List String) :=
  if 0 ≤ k ∧ k ≤ (lines.length : Int) then
    some (lines.take k.toNat ++ x :: lines.drop k.toNat)
  else none

/-- Go `InsertLine(code, lineNumber, newText)`. -/
def InsertLine (code : String) (lineNumber : Int) (newText : String) : Outcome String :=
  if lineNumber < 1 then Outcome.err Err.lineNumberTooSmall
  else
    let lines := strings.Split code '\n'
    if lineNumber > (lines.length : Int) + 1 then Outcome.err Err.lineNumberTooLarge
    else
      match spliceAt lines (lineNumber - 1) newText with
      | none => Outcome.panic
      | some lines1 => Outcome.ok (strings.Join lines1 "\n")

/-- The `for i, index := range indices` loop of `InsertLinesAtIndices`, entered at iteration `i`
with the indices still to visit and the current value of `lines`. The bounds test reads
`len(lines)` of the current slice; `linesToInsert[i]` panics when `i` is out of range. -/
def insertLoop (linesToInsert : List String) : Nat → List Int → List String →
    Outcome (List String)
  | _, [], lines => Outcome.ok lines
  | i, index :: rest, lines =>
    if index < 1 ∨ index > (lines.length : Int) + 1 then
      Outcome.err (Err.indexOutOfBounds index)
    else
      match linesToInsert.get? i with
      | none => Outcome.panic
      | some x =>
        match spliceAt lines (index - 1 + (i : Int)) x with
        | none => Outcome.panic
        | some lines1 => insertLoop linesToInsert (i + 1) rest lines1

/-- Go `InsertLinesAtIndices(file, indices, linesToInsert)`. -/
def InsertLinesAtIndices (file : String) (indices : List Int) (linesToInsert : List String) :
    Outcome String :=
  if indices.length ≠ linesToInsert.length then Outcome.err Err.lengthMismatch
  else
    match insertLoop linesToInsert 0 indices (strings.Split file '\n') with
    | Outcome.ok lines => Outcome.ok (strings.Join lines "\n")
    | Outcome.err e => Outcome.err e
    | Outcome.panic => Outcome.panic

end textfile

namespace memory

/-- The search hit of the `memory` package, with the two fields `ask.go` reads: `result.ID` and
`fragments[i].Score`. The declaration is outside the repository; the fields follow the spec's
`ScoredMatch { id, score }`. `Score` is a Go float; the code only compares scores with `>`, so
a score is modelled by an integer standing for its place in the order of the float values. A
NaN score, on which `>` is not an ordering, is outside the model. -/
structure MemoryFragment where
  ID : String
  Score : Int
  deriving DecidableEq, Repr

end memory

namespace prompt

/-- The file record of `git2gpt/prompt`, with the fields `ask.go` uses: `Path`, `Contents`,
`Tokens` (an `int64`). -/
structure GitFile where
  Path : String
  Contents : String
  Tokens : Int
  deriving DecidableEq, Repr

end prompt

namespace cmd

open memory prompt

/-- The requirement Go puts on the `less` argument of `sort.Slice` (the rule of
`sort.Interface.Less`): an asymmetric relation whose negation is transitive, that is a strict
weak ordering. -/
def StrictWeak (less : MemoryFragment → MemoryFragment → Bool) : Prop :=
  (∀ a b, less a b = true → less b a = false) ∧
    (∀ a b c, less a b = false → less b c = false → less a c = false)

/-- What the Go library documents of `sort.Slice(x, less)`, the function being outside the
repository: `x` is rearranged (the result is a permutation of the input) so that no element is
`less` than one before it. Nothing more is promised: "The sort is not guaranteed to be stable:
equal elements may be reversed from their original order." The `less` of Go takes two positions
of the slice; the one of `sortByScore` reads only the two elements at these positions, so it is
given here as a function of two elements. -/
def SortSliceContract
    (sortSlice : (MemoryFragment → MemoryFragment → Bool) → List MemoryFragment →
      List MemoryFragment) : Prop :=
  ∀ less, StrictWeak less → ∀ l,
    (sortSlice less l).Perm l ∧ (sortSlice less l).Pairwise (fun a b => less b a = false)

/-- Go `sortByScore(fragments)`: `sort.Slice` with `less(i, j) = fragments[i].Score >
fragments[j].Score`. The library function `sort.Slice` is a parameter. -/
def sortByScore
    (sortSlice : (MemoryFragment → MemoryFragment → Bool) → List MemoryFragment →
      List MemoryFragment)
    (fragments : List MemoryFragment) : List MemoryFragment :=
  sortSlice (fun a b => decide (a.Score > b.Score)) fragments

/-- The inner loop of the context assembly for one search result:
`for _, file := range repo.Files { if file.Path == result.ID { files = append(files, file) } }`.
The loop has no `break`: it visits every file. -/
def assembleResult (result : MemoryFragment) (repoFiles : List GitFile) (files : List GitFile) :
    List GitFile :=
  repoFiles.foldl (fun acc file => if file.Path = result.ID then acc ++ [file] else acc) files

/-- The context assembly loop of `askCmd.Run` (lines 124-131):
`var files []prompt.GitFile; for _, result := range sortedFragments { ... }`. -/
def assembleContext (sortedFragments : List MemoryFragment) (repoFiles : List GitFile) :
    List GitFile :=
  sortedFragments.foldl (fun acc result => assembleResult result repoFiles acc) []

/-- The calls and exits of the repository branch of `askCmd.Run` that the properties speak of. -/
inductive Event where
  /-- The call `memory.New(testIndexPath)`. -/
  | memoryNew
  /-- The call `git.GetRepo(repoPath, ignoreFilePath, ignoreGitignore)`. -/
  | getRepo
  /-- The call `m.Add(file.Path, file.Contents)`. -/
  | add (path contents : String)
  /-- The call `m.Search(chatPrompt)`. -/
  | search (query : String)
  /-- The call `m.Destroy()`. -/
  | destroy
  /-- The call `ai.Question(files, chatPrompt, conf)`. -/
  | question (files : List GitFile) (query : String)
  /-- A call of `log.Error` or `log.Errorf`, with the fixed part of the message. -/
  | logError (msg : String)
  /-- The call `os.Exit(code)`, which ends the process. -/
  | exit (code : Int)
  /-- The final `fmt.Println("Answer:", answer)`. -/
  | println (answer : String)
  deriving DecidableEq, Repr

/-- The behaviour of the collaborators of the repository branch, all outside the repository:
whether `memory.New` succeeds, what `git.GetRepo` returns (`none` for an error), whether the
`k`-th call of `m.Add` succeeds, what `m.Search` returns, what `ai.Question` returns, and the
library's `sort.Slice`. -/
structure Env where
  newOk : Bool
  getRepo : Option (List GitFile)
  addOk : Nat → String → String → Bool
  search : String → Option (List MemoryFragment)
  question : List GitFile → String → Option String
  sortSlice : (MemoryFragment → MemoryFragment → Bool) → List MemoryFragment →
    List MemoryFragment

/-- Lines 108-143 of `askCmd.Run`: search, destroy the index, sort, assemble the context, stop
when it is empty, else ask the question. The value is the trace of events up to the end of the
branch or the `os.Exit`. -/
def searchAndAsk (env : Env) (chatPrompt : String) (repoFiles : List GitFile) : List Event :=
  Event.search chatPrompt ::
    match env.search chatPrompt with
    | none => [Event.logError "Failed to search memory index", Event.exit 1]
    | some results =>
      Event.destroy ::
        if (assembleContext (sortByScore env.sortSlice results) repoFiles).length = 0 then
          [Event.logError "No results found.", Event.exit 1]
        else
          Event.question (assembleContext (sortByScore env.sortSlice results) repoFiles)
              chatPrompt ::
            match env.question (assembleContext (sortByScore env.sortSlice results) repoFiles)
                chatPrompt with
            | none => [Event.logError "Error asking question", Event.exit 1]
            | some answer => [Event.println answer]

/-- Lines 100-106 of `askCmd.Run`, the loop `for _, file := range repo.Files` that adds each
file to the index, entered at the `k`-th file, followed by the rest of the branch. -/
def indexFiles (env : Env) (chatPrompt : String) (repoFiles : List GitFile) :
    Nat → List GitFile → List Event
  | _, [] => searchAndAsk env chatPrompt repoFiles
  | k, file :: rest =>
    Event.add file.Path file.Contents ::
      if env.addOk k file.Path file.Contents then indexFiles env chatPrompt repoFiles (k + 1) rest
      else [Event.logError "Error indexing file", Event.exit 1]

/-- The repository branch of `askCmd.Run` (lines 78-143, the case `info.IsDir()`). -/
def runRepo (env : Env) (chatPrompt : String) : List Event :=
  Event.memoryNew ::
    if env.newOk then
      Event.getRepo ::
        match env.getRepo with
        | none => [Event.logError "Error processing repo", Event.exit 1]
        | some repoFiles => indexFiles env chatPrompt repoFiles 0 repoFiles
    else [Event.logError "Failed to create memory index", Event.exit 1]

/-- Whether every call of `m.Add` of the indexing loop succeeds, from the `k`-th file on. -/
def addsOk (addOk : Nat → String → String → Bool) : Nat → List GitFile → Bool
  | _, [] => true
  | k, file :: rest => addOk k file.Path file.Contents && addsOk addOk (k + 1) rest

/-- A `sort.Slice` within the documented contract that is stable: insertion sort. -/
def sortSliceInsertion (less : MemoryFragment → MemoryFragment → Bool)
    (l : List MemoryFragment) : List MemoryFragment :=
  l.insertionSort (fun a b => less b a = false)

/-- A run over two files in which every call succeeds and the search returns only an id that
names no file. -/
def envNoMatch : Env :=
  Env.mk true (some [⟨"a", "A", 1⟩, ⟨"b", "B", 1⟩]) (fun _ _ _ => true)
    (fun _ => some [⟨"z", 2⟩]) (fun _ _ => some "answer") sortSliceInsertion

end cmd

open textfile strings cmd memory prompt

/-! ## Definitions used to state the properties -/

/-- Joining lists of characters with a separator character: `Join` on the character data. -/
def joinData (sep : Char) : List (List Char) → List Char
  | [] => []
  | [a] => a
  | a :: b :: rest => a ++ sep :: joinData sep (b :: rest)

/-- The closed form of the splice for ascending indices. `S` is the part of the original lines
from line `m + 1` on; each index `idx` (1-based, in the original numbering) cuts `S` before the
original line `idx` and puts the next new line there. -/
def weave (m : Nat) : List String → List Int → List String → List String
  | S, idx :: rest, x :: xs =>
    S.take (idx - 1 - (m : Int)).toNat ++
      x :: weave (idx - 1).toNat (S.drop (idx - 1 - (m : Int)).toNat) rest xs
  | S, [], _ => S
  | S, _ :: _, [] => S

/-- The 0-based positions `idx + c + j` of the entries `j = 0, 1, ...` of an index list. With
`c = -1` this is `indices[j] - 1 + j`: the 0-based form of the 1-based position
`indices[j] + j` at which the `j`-th new line is put. -/
def positionsFrom (c : Int) : List Int → List Nat
  | [] => []
  | idx :: rest => (idx + c).toNat :: positionsFrom (c + 1) rest

/-- The positions, 0-based, of the inserted lines in the result: `indices[j] - 1 + j`. -/
def insertedPositions (indices : List Int) : List Nat := positionsFrom (-1) indices

/-- Removing the elements at the given ascending positions, the last position first. -/
def erasePositions (ps : List Nat) (L : List String) : List String :=
  ps.foldr (fun p l => l.eraseIdx p) L


/-! ## Split and Join -/
theorem joinData_cons (sep : Char) (a b : List Char) (rest : List (List Char)) :
    joinData sep (a :: b :: rest) = a ++ sep :: joinData sep (b :: rest) := rfl

theorem Join_data (sep : Char) (L : List String) :
    (Join L (String.singleton sep)).data = joinData sep (L.map String.data) := by
  induction L with
  | nil => rfl
  | cons a t ih =>
    cases t with
    | nil => rfl
    | cons b r =>
      simp only [Join, String.data_append, List.map_cons, joinData_cons] at ih ⊢
      rw [ih]
      simp [String.singleton]

theorem joinData_splitAux (sep : Char) (cs : List Char) :
    joinData sep ((splitAux sep cs).1 :: (splitAux sep cs).2) = cs := by
  induction cs with
  | nil => rfl
  | cons c t ih =>
    by_cases h : c = sep
    · simp only [splitAux, h, if_true, joinData_cons, ih, List.nil_append]
    · simp only [splitAux, h, if_false]
      cases hs : (splitAux sep t).2 with
      | nil =>
        rw [hs] at ih
        simpa [joinData] using ih
      | cons b r =>
        rw [hs] at ih
        simpa [joinData_cons] using ih

/-- Joining the pieces of a split gives the text back. -/
theorem Join_Split (s : String) (sep : Char) :
    Join (Split s sep) (String.singleton sep) = s := by
  apply String.ext
  rw [Join_data]
  simp only [Split, List.map_map]
  have h : (String.data ∘ String.mk) = (id : List Char → List Char) := by
    funext l
    rfl
  rw [h, List.map_id]
  exact joinData_splitAux sep s.data

theorem splitAux_append (sep : Char) (a rest : List Char) (ha : sep ∉ a) :
    splitAux sep (a ++ rest) = (a ++ (splitAux sep rest).1, (splitAux sep rest).2) := by
  induction a with
  | nil => rfl
  | cons c t ih =>
    have hc : c ≠ sep := fun h => ha (by simp [h])
    have ht : sep ∉ t := fun h => ha (by simp [h])
    simp [splitAux, hc, ih ht]

theorem splitAux_joinData (sep : Char) (L : List (List Char)) (a : List Char)
    (h : ∀ l ∈ a :: L, sep ∉ l) : splitAux sep (joinData sep (a :: L)) = (a, L) := by
  induction L generalizing a with
  | nil =>
    have := splitAux_append sep a [] (h a (by simp))
    simpa [joinData, splitAux] using this
  | cons b r ih =>
    have hb := ih b (fun l hl => h l (List.mem_cons_of_mem _ hl))
    rw [joinData_cons, splitAux_append sep a _ (h a (by simp))]
    simp [splitAux, hb]

/-- Splitting a join of pieces that hold no separator gives the pieces back. -/
theorem Split_Join (sep : Char) (L : List String) (hne : L ≠ [])
    (h : ∀ l ∈ L, sep ∉ l.data) : Split (Join L (String.singleton sep)) sep = L := by
  cases L with
  | nil => exact absurd rfl hne
  | cons a t =>
    have hd : ∀ l ∈ a.data :: t.map String.data, sep ∉ l := by
      intro l hl
      rcases List.mem_cons.1 hl with rfl | hl
      · exact h a (by simp)
      · obtain ⟨x, hx, rfl⟩ := List.mem_map.1 hl
        exact h x (List.mem_cons_of_mem _ hx)
    simp only [Split, Join_data, List.map_cons, splitAux_joinData sep _ _ hd, List.map_map]
    have hid : (String.mk ∘ String.data) = (id : String → String) := by
      funext l
      rfl
    rw [hid, List.map_id]

theorem Split_length_pos (s : String) (sep : Char) : 0 < (Split s sep).length := by
  simp [Split]

theorem Join_cons_of_ne_nil (x : String) (L : List String) (sep : String) (hne : L ≠ []) :
    Join (x :: L) sep = x ++ sep ++ Join L sep := by
  cases L with
  | nil => exact absurd rfl hne
  | cons b r => rfl

theorem Join_append_singleton (x : String) (L : List String) (sep : String) (hne : L ≠ []) :
    Join (L ++ [x]) sep = Join L sep ++ sep ++ x := by
  induction L with
  | nil => exact absurd rfl hne
  | cons a t ih =>
    cases t with
    | nil => rfl
    | cons b r =>
      have h1 := ih (by simp)
      show a ++ sep ++ Join ((b :: r) ++ [x]) sep = a ++ sep ++ Join (b :: r) sep ++ sep ++ x
      rw [h1]
      simp [String.append_assoc]

theorem newline_eq : ("\n" : String) = String.singleton '\n' := rfl

theorem Join_Split_newline (s : String) : Join (Split s '\n') "\n" = s := by
  rw [newline_eq]
  exact Join_Split s '\n'

theorem spliceAt_of_le (lines : List String) (k : Int) (x : String) (h0 : 0 ≤ k)
    (h1 : k ≤ (lines.length : Int)) :
    spliceAt lines k x = some (lines.take k.toNat ++ x :: lines.drop k.toNat) := by
  simp [spliceAt, h0, h1]

theorem spliceAt_of_gt (lines : List String) (k : Int) (x : String)
    (h : (lines.length : Int) < k) : spliceAt lines k x = none := by
  have : ¬ (0 ≤ k ∧ k ≤ (lines.length : Int)) := by omega
  simp [spliceAt, this]

theorem InsertLine_ok (text : String) (lineNumber : Int) (newText : String)
    (h1 : 1 ≤ lineNumber) (h2 : lineNumber ≤ ((Split text '\n').length : Int) + 1) :
    InsertLine text lineNumber newText =
      Outcome.ok (Join ((Split text '\n').take (lineNumber - 1).toNat ++
        newText :: (Split text '\n').drop (lineNumber - 1).toNat) "\n") := by
  have ha : ¬ lineNumber < 1 := by omega
  have hb : ¬ lineNumber > ((Split text '\n').length : Int) + 1 := by omega
  simp only [InsertLine, ha, hb, if_false]
  rw [spliceAt_of_le _ _ _ (by omega) (by omega)]

/-! ## InsertLine -/

/-- C8: `InsertLine` returns an error exactly when `lineNumber < 1` or
`lineNumber > lineCount + 1`, `lineCount` being the number of `"\n"`-separated lines of the
text; line numbers `0` and `lineCount + 2` fail for every text, and every line number in
`[1, lineCount + 1]` is accepted (a text is returned). -/
theorem InsertLine_error_iff (text : String) (lineNumber : Int) (newText : String) :
    ((∃ e, InsertLine text lineNumber newText = Outcome.err e) ↔
        (lineNumber < 1 ∨ lineNumber > ((Split text '\n').length : Int) + 1)) ∧
      (∃ e, InsertLine text 0 newText = Outcome.err e) ∧
      (∃ e, InsertLine text (((Split text '\n').length : Int) + 2) newText = Outcome.err e) ∧
      ((1 ≤ lineNumber ∧ lineNumber ≤ ((Split text '\n').length : Int) + 1) →
        ∃ r, InsertLine text lineNumber newText = Outcome.ok r) := by
  refine ⟨⟨?_, ?_⟩, ⟨Err.lineNumberTooSmall, by simp [InsertLine]⟩, ?_, ?_⟩
  · rintro ⟨e, he⟩
    by_contra hcon
    rw [InsertLine_ok text lineNumber newText (by omega) (by omega)] at he
    exact Outcome.noConfusion he
  · rintro (h | h)
    · exact ⟨Err.lineNumberTooSmall, by simp [InsertLine, h]⟩
    · by_cases h1 : lineNumber < 1
      · exact ⟨Err.lineNumberTooSmall, by simp [InsertLine, h1]⟩
      · exact ⟨Err.lineNumberTooLarge, by simp [InsertLine, h1, h]⟩
  · refine ⟨Err.lineNumberTooLarge, ?_⟩
    have ha : ¬ ((Split text '\n').length : Int) + 2 < 1 := by omega
    simp [InsertLine, ha]
  · rintro ⟨h1, h2⟩
    exact ⟨_, InsertLine_ok text lineNumber newText h1 h2⟩

/-- The iff of C8 at the text "a\nb" (two lines): line number 4 is an error, and line number 3
is accepted. -/
theorem InsertLine_error_iff_witness :
    (∃ e, InsertLine "a\nb" 4 "X" = Outcome.err e) ∧
      (∃ r, InsertLine "a\nb" 3 "X" = Outcome.ok r) :=
  ⟨(InsertLine_error_iff "a\nb" 4 "X").1.2 (Or.inr (by decide)),
    (InsertLine_error_iff "a\nb" 3 "X").2.2.2 ⟨by decide, by decide⟩⟩

/-- C2: for a text of `n` lines and `1 ≤ lineNumber ≤ n + 1`, `InsertLine` returns the
`"\n"`-join of a list of `n + 1` lines that holds the original lines `1 .. lineNumber - 1` at
their positions, `newText` at position `lineNumber`, and every original line `j ≥ lineNumber` at
position `j + 1`; this list is `lines[:lineNumber-1] ++ [newText] ++ lines[lineNumber-1:]`. With
`lineNumber = 1` the result is `newText + "\n" + text`, and with `lineNumber = n + 1` it is
`text + "\n" + newText`. -/
theorem InsertLine_splice (text : String) (lineNumber : Int) (newText : String)
    (h1 : 1 ≤ lineNumber) (h2 : lineNumber ≤ ((Split text '\n').length : Int) + 1) :
    (∃ L : List String,
        InsertLine text lineNumber newText = Outcome.ok (Join L "\n") ∧
        L = (Split text '\n').take (lineNumber - 1).toNat ++
          newText :: (Split text '\n').drop (lineNumber - 1).toNat ∧
        L.length = (Split text '\n').length + 1 ∧
        (∀ j : Nat, (j : Int) < lineNumber - 1 → L.get? j = (Split text '\n').get? j) ∧
        L.get? (lineNumber - 1).toNat = some newText ∧
        (∀ j : Nat, lineNumber - 1 ≤ (j : Int) → L.get? (j + 1) = (Split text '\n').get? j)) ∧
      InsertLine text 1 newText = Outcome.ok (newText ++ "\n" ++ text) ∧
      InsertLine text (((Split text '\n').length : Int) + 1) newText =
        Outcome.ok (text ++ "\n" ++ newText) := by
  have hpos := Split_length_pos text '\n'
  have hne : Split text '\n' ≠ [] := by
    intro h
    rw [h] at hpos
    exact Nat.lt_irrefl 0 hpos
  refine ⟨⟨_, InsertLine_ok text lineNumber newText h1 h2, rfl, ?_, ?_, ?_, ?_⟩, ?_, ?_⟩
  · simp only [List.length_append, List.length_cons, List.length_take, List.length_drop]
    omega
  · intro j hj
    have hj1 : j < (lineNumber - 1).toNat := by omega
    have hj2 : j < ((Split text '\n').take (lineNumber - 1).toNat).length := by
      simp only [List.length_take]
      omega
    simp only [List.get?_eq_getElem?]
    rw [List.getElem?_append_left hj2, List.getElem?_take_of_lt hj1]
  · have hlen : ((Split text '\n').take (lineNumber - 1).toNat).length =
        (lineNumber - 1).toNat := by
      simp only [List.length_take]
      omega
    simp only [List.get?_eq_getElem?]
    rw [List.getElem?_append_right (by omega), hlen]
    simp
  · intro j hj
    have hlen : ((Split text '\n').take (lineNumber - 1).toNat).length =
        (lineNumber - 1).toNat := by
      simp only [List.length_take]
      omega
    simp only [List.get?_eq_getElem?]
    rw [List.getElem?_append_right (by omega), hlen]
    have e1 : j + 1 - (lineNumber - 1).toNat = (j - (lineNumber - 1).toNat) + 1 := by omega
    rw [e1, List.getElem?_cons_succ, List.getElem?_drop]
    congr 1
    omega
  · rw [InsertLine_ok text 1 newText (by omega) (by omega)]
    simp only [sub_self, Int.toNat_zero, List.take_zero, List.drop_zero, List.nil_append]
    rw [Join_cons_of_ne_nil _ _ _ hne, Join_Split_newline]
  · rw [InsertLine_ok text _ newText (by omega) (by omega)]
    have e : (((Split text '\n').length : Int) + 1 - 1).toNat = (Split text '\n').length := by
      omega
    rw [e, List.take_length, List.drop_length]
    rw [Join_append_singleton _ _ _ hne, Join_Split_newline]

/-- C2 at the text "a\nb\nc" and line number 2. -/
theorem InsertLine_splice_witness :
    InsertLine "a\nb\nc" 1 "X" = Outcome.ok ("X" ++ "\n" ++ "a\nb\nc") ∧
      InsertLine "a\nb\nc" (((Split "a\nb\nc" '\n').length : Int) + 1) "X" =
        Outcome.ok ("a\nb\nc" ++ "\n" ++ "X") :=
  (InsertLine_splice "a\nb\nc" 2 "X" (by decide) (by decide)).2

/-! ## InsertLinesAtIndices -/

theorem weave_nil (m : Nat) (S xs : List String) : weave m S [] xs = S := by
  cases xs <;> rfl

theorem weave_cons (m : Nat) (S : List String) (idx : Int) (rest : List Int) (x : String)
    (xs : List String) :
    weave m S (idx :: rest) (x :: xs) =
      S.take (idx - 1 - (m : Int)).toNat ++
        x :: weave (idx - 1).toNat (S.drop (idx - 1 - (m : Int)).toNat) rest xs := rfl

/-- The loop computes the closed form when the indices still to visit are ascending and lie in
the part of the original text not yet passed. -/
theorem insertLoop_eq_weave (new : List String) :
    ∀ (rest : List Int) (i m : Nat) (Done S : List String),
      Done.length = m + i → rest.Pairwise (· < ·) →
      (∀ idx ∈ rest, (m : Int) + 1 ≤ idx ∧ idx ≤ (m : Int) + S.length + 1) →
      i + rest.length ≤ new.length →
      insertLoop new i rest (Done ++ S) = Outcome.ok (Done ++ weave m S rest (new.drop i)) := by
  intro rest
  induction rest with
  | nil =>
    intro i m Done S _ _ _ _
    simp [insertLoop, weave_nil]
  | cons idx rest ih =>
    intro i m Done S hD hasc hb hlen
    obtain ⟨hlo, hhi⟩ := hb idx (by simp)
    rw [List.pairwise_cons] at hasc
    simp only [List.length_cons] at hlen
    have hi : i < new.length := by omega
    have hdrop : new.drop i = new[i] :: new.drop (i + 1) := (List.drop_eq_getElem_cons hi)
    have hget : new.get? i = some new[i] := by
      simp [List.get?_eq_getElem?, List.getElem?_eq_getElem hi]
    have hbound : ¬ (idx < 1 ∨ idx > (((Done ++ S).length : Nat) : Int) + 1) := by
      simp only [List.length_append, Nat.cast_add]
      omega
    have hk0 : (0 : Int) ≤ idx - 1 + (i : Int) := by omega
    have hk1 : idx - 1 + (i : Int) ≤ (((Done ++ S).length : Nat) : Int) := by
      simp only [List.length_append, Nat.cast_add]
      omega
    have hk : (idx - 1 + (i : Int)).toNat = Done.length + (idx - 1 - (m : Int)).toNat := by
      omega
    rw [insertLoop, if_neg hbound, hget]
    simp only []
    rw [spliceAt_of_le _ _ _ hk0 hk1]
    simp only []
    rw [hk, List.take_append, List.drop_append, hdrop, weave_cons]
    have e : Done ++ List.take (idx - 1 - (m : Int)).toNat S ++
          new[i] :: List.drop (idx - 1 - (m : Int)).toNat S =
        (Done ++ List.take (idx - 1 - (m : Int)).toNat S ++ [new[i]]) ++
          List.drop (idx - 1 - (m : Int)).toNat S := by
      simp
    rw [e, ih (i + 1) (idx - 1).toNat _ _ ?_ hasc.2 ?_ (by omega)]
    · simp
    · simp only [List.length_append, List.length_take, List.length_singleton]
      omega
    · intro idx2 h2
      have h3 := hasc.1 idx2 h2
      have h4 := (hb idx2 (List.mem_cons_of_mem _ h2)).2
      simp only [List.length_drop]
      omega

theorem weave_length (m : Nat) (S : List String) (idxs : List Int) (xs : List String) :
    ∀ (_ : xs.length = idxs.length),
      (∀ idx ∈ idxs, (m : Int) + 1 ≤ idx ∧ idx ≤ (m : Int) + S.length + 1) →
      idxs.Pairwise (· < ·) → (weave m S idxs xs).length = S.length + idxs.length := by
  induction idxs generalizing m S xs with
  | nil =>
    intro _ _ _
    simp [weave_nil]
  | cons idx rest ih =>
    intro hlen hb hasc
    cases xs with
    | nil => simp at hlen
    | cons x xs =>
      obtain ⟨hlo, hhi⟩ := hb idx (by simp)
      rw [List.pairwise_cons] at hasc
      simp only [List.length_cons, Nat.add_right_cancel_iff] at hlen
      rw [weave_cons]
      simp only [List.length_append, List.length_cons, List.length_take]
      rw [ih (idx - 1).toNat _ xs hlen ?_ hasc.2]
      · simp only [List.length_drop]
        omega
      · intro idx2 h2
        have h3 := hasc.1 idx2 h2
        have h4 := (hb idx2 (List.mem_cons_of_mem _ h2)).2
        simp only [List.length_drop]
        omega

theorem weave_mem (m : Nat) (S : List String) (idxs : List Int) (xs : List String) :
    ∀ l ∈ weave m S idxs xs, l ∈ S ∨ l ∈ xs := by
  induction idxs generalizing m S xs with
  | nil =>
    intro l hl
    rw [weave_nil] at hl
    exact Or.inl hl
  | cons idx rest ih =>
    cases xs with
    | nil =>
      intro l hl
      exact Or.inl hl
    | cons x xs =>
      intro l hl
      rw [weave_cons, List.mem_append, List.mem_cons] at hl
      rcases hl with hl | rfl | hl
      · exact Or.inl (List.mem_of_mem_take hl)
      · exact Or.inr (by simp)
      · rcases ih _ _ _ l hl with h | h
        · exact Or.inl (List.mem_of_mem_drop h)
        · exact Or.inr (List.mem_cons_of_mem _ h)

/-- The first line of the closed form is the first line of `S` when every index lies beyond
line `m + 1`. -/
theorem weave_head (m : Nat) (S : List String) (idxs : List Int) (xs : List String)
    (hb : ∀ idx ∈ idxs, (m : Int) + 2 ≤ idx) (hS : 0 < S.length) :
    (weave m S idxs xs).get? 0 = S.get? 0 := by
  cases idxs with
  | nil => rw [weave_nil]
  | cons idx rest =>
    cases xs with
    | nil => rfl
    | cons x xs =>
      have h := hb idx (by simp)
      rw [weave_cons]
      simp only [List.get?_eq_getElem?]
      rw [List.getElem?_append_left (by simp only [List.length_take]; omega),
        List.getElem?_take_of_lt (by omega)]

/-- Where the new lines and their followers sit in the closed form. -/
theorem weave_get (m : Nat) (S : List String) (idxs : List Int) (xs : List String) :
    ∀ (_ : xs.length = idxs.length),
      (∀ idx ∈ idxs, (m : Int) + 1 ≤ idx ∧ idx ≤ (m : Int) + S.length + 1) →
      idxs.Pairwise (· < ·) →
      ∀ (j : Nat) (idx : Int) (x : String), idxs.get? j = some idx → xs.get? j = some x →
        (weave m S idxs xs).get? (idx - 1 - (m : Int) + (j : Int)).toNat = some x ∧
        (idx ≤ (m : Int) + S.length →
          (weave m S idxs xs).get? (idx - (m : Int) + (j : Int)).toNat =
            S.get? (idx - 1 - (m : Int)).toNat) := by
  induction idxs generalizing m S xs with
  | nil =>
    intro _ _ _ j idx x hj
    simp at hj
  | cons idx0 rest ih =>
    intro hlen hb hasc j idx x hj hx
    cases xs with
    | nil => simp at hlen
    | cons x0 xs =>
      obtain ⟨hlo, hhi⟩ := hb idx0 (by simp)
      rw [List.pairwise_cons] at hasc
      simp only [List.length_cons, Nat.add_right_cancel_iff] at hlen
      have htake : (S.take (idx0 - 1 - (m : Int)).toNat).length =
          (idx0 - 1 - (m : Int)).toNat := by
        simp only [List.length_take]
        omega
      have hb2 : ∀ idx2 ∈ rest, (((idx0 - 1).toNat : Nat) : Int) + 1 ≤ idx2 ∧
          idx2 ≤ (((idx0 - 1).toNat : Nat) : Int) +
            ((S.drop (idx0 - 1 - (m : Int)).toNat).length : Nat) + 1 := by
        intro idx2 h2
        have h3 := hasc.1 idx2 h2
        have h4 := (hb idx2 (List.mem_cons_of_mem _ h2)).2
        simp only [List.length_drop]
        omega
      rw [weave_cons]
      cases j with
      | zero =>
        simp only [List.get?_cons_zero, Option.some.injEq] at hj hx
        subst hj
        subst hx
        refine ⟨?_, ?_⟩
        · simp only [List.get?_eq_getElem?]
          rw [List.getElem?_append_right (by omega), htake]
          have e : (idx0 - 1 - (m : Int) + ((0 : Nat) : Int)).toNat -
              (idx0 - 1 - (m : Int)).toNat = 0 := by omega
          rw [e, List.getElem?_cons_zero]
        · intro hle
          have hhead := weave_head (idx0 - 1).toNat (S.drop (idx0 - 1 - (m : Int)).toNat) rest xs
            (fun idx2 h2 => by have h3 := hasc.1 idx2 h2; omega)
            (by simp only [List.length_drop]; omega)
          simp only [List.get?_eq_getElem?] at hhead ⊢
          rw [List.getElem?_append_right (by omega), htake]
          have e : (idx0 - (m : Int) + ((0 : Nat) : Int)).toNat -
              (idx0 - 1 - (m : Int)).toNat = 0 + 1 := by omega
          rw [e, List.getElem?_cons_succ, hhead, List.getElem?_drop]
          simp
      | succ j =>
        simp only [List.get?_cons_succ] at hj hx
        have hmem : idx ∈ rest := List.get?_mem hj
        have h3 := hasc.1 idx hmem
        have h4 := (hb idx (List.mem_cons_of_mem _ hmem)).2
        obtain ⟨ih1, ih2⟩ := ih (idx0 - 1).toNat _ xs hlen hb2 hasc.2 j idx x hj hx
        refine ⟨?_, ?_⟩
        · simp only [List.get?_eq_getElem?] at ih1 ⊢
          rw [List.getElem?_append_right (by omega), htake]
          have e : (idx - 1 - (m : Int) + ((j + 1 : Nat) : Int)).toNat -
              (idx0 - 1 - (m : Int)).toNat =
              (idx - 1 - (((idx0 - 1).toNat : Nat) : Int) + (j : Int)).toNat + 1 := by omega
          rw [e, List.getElem?_cons_succ, ih1]
        · intro hle
          have ih3 := ih2 (by simp only [List.length_drop]; omega)
          simp only [List.get?_eq_getElem?] at ih3 ⊢
          rw [List.getElem?_append_right (by omega), htake]
          have e : (idx - (m : Int) + ((j + 1 : Nat) : Int)).toNat -
              (idx0 - 1 - (m : Int)).toNat =
              (idx - (((idx0 - 1).toNat : Nat) : Int) + (j : Int)).toNat + 1 := by omega
          rw [e, List.getElem?_cons_succ, ih3, List.getElem?_drop]
          congr 1
          omega

theorem erasePositions_cons (p : Nat) (ps : List Nat) (L : List String) :
    erasePositions (p :: ps) L = (erasePositions ps L).eraseIdx p := rfl

theorem erasePositions_append (P Q : List String) (ps : List Nat)
    (h : ∀ p ∈ ps, P.length ≤ p) :
    erasePositions ps (P ++ Q) = P ++ erasePositions (ps.map (fun p => p - P.length)) Q := by
  induction ps with
  | nil => rfl
  | cons p ps ih =>
    rw [erasePositions_cons, ih (fun q hq => h q (List.mem_cons_of_mem _ hq)),
      List.eraseIdx_append_of_length_le (h p (by simp))]
    rfl

theorem positionsFrom_ge (d : Nat) (idxs : List Int) :
    ∀ (c : Int), (∀ idx ∈ idxs, (d : Int) ≤ idx + c) → ∀ p ∈ positionsFrom c idxs, d ≤ p := by
  induction idxs with
  | nil =>
    intro c _ p hp
    simp [positionsFrom] at hp
  | cons idx rest ih =>
    intro c h p hp
    simp only [positionsFrom, List.mem_cons] at hp
    rcases hp with rfl | hp
    · have := h idx (by simp)
      omega
    · exact ih (c + 1) (fun i2 h2 => by have := h i2 (List.mem_cons_of_mem _ h2); omega) p hp

theorem positionsFrom_sub (d : Nat) (idxs : List Int) :
    ∀ (c : Int), (∀ idx ∈ idxs, (d : Int) ≤ idx + c) →
      (positionsFrom c idxs).map (fun p => p - d) = positionsFrom (c - (d : Int)) idxs := by
  induction idxs with
  | nil =>
    intro c _
    rfl
  | cons idx rest ih =>
    intro c h
    have h0 := h idx (by simp)
    simp only [positionsFrom, List.map_cons]
    rw [ih (c + 1) (fun i2 h2 => by have := h i2 (List.mem_cons_of_mem _ h2); omega)]
    have e1 : (idx + c).toNat - d = (idx + (c - (d : Int))).toNat := by omega
    have e2 : c + 1 - (d : Int) = c - (d : Int) + 1 := by omega
    rw [e1, e2]

/-- Erasing the inserted positions from the closed form gives `S` back. -/
theorem weave_erase (m : Nat) (S : List String) (idxs : List Int) (xs : List String) :
    ∀ (_ : xs.length = idxs.length),
      (∀ idx ∈ idxs, (m : Int) + 1 ≤ idx ∧ idx ≤ (m : Int) + S.length + 1) →
      idxs.Pairwise (· < ·) →
      erasePositions (positionsFrom (-1 - (m : Int)) idxs) (weave m S idxs xs) = S := by
  induction idxs generalizing m S xs with
  | nil =>
    intro _ _ _
    rw [weave_nil]
    rfl
  | cons idx0 rest ih =>
    intro hlen hb hasc
    cases xs with
    | nil => simp at hlen
    | cons x0 xs =>
      obtain ⟨hlo, hhi⟩ := hb idx0 (by simp)
      rw [List.pairwise_cons] at hasc
      simp only [List.length_cons, Nat.add_right_cancel_iff] at hlen
      have hb2 : ∀ idx2 ∈ rest, (((idx0 - 1).toNat : Nat) : Int) + 1 ≤ idx2 ∧
          idx2 ≤ (((idx0 - 1).toNat : Nat) : Int) +
            ((S.drop (idx0 - 1 - (m : Int)).toNat).length : Nat) + 1 := by
        intro idx2 h2
        have h3 := hasc.1 idx2 h2
        have h4 := (hb idx2 (List.mem_cons_of_mem _ h2)).2
        simp only [List.length_drop]
        omega
      have hP : (S.take (idx0 - 1 - (m : Int)).toNat ++ [x0]).length =
          (idx0 - 1 - (m : Int)).toNat + 1 := by
        simp only [List.length_append, List.length_take, List.length_singleton]
        omega
      have hge : ∀ idx2 ∈ rest,
          (((S.take (idx0 - 1 - (m : Int)).toNat ++ [x0]).length : Nat) : Int) ≤
            idx2 + (-1 - (m : Int) + 1) := by
        intro idx2 h2
        have h3 := hasc.1 idx2 h2
        rw [hP]
        omega
      have hW : weave m S (idx0 :: rest) (x0 :: xs) =
          (S.take (idx0 - 1 - (m : Int)).toNat ++ [x0]) ++
            weave (idx0 - 1).toNat (S.drop (idx0 - 1 - (m : Int)).toNat) rest xs := by
        rw [weave_cons]
        simp
      have hc : -1 - (m : Int) + 1 -
          (((S.take (idx0 - 1 - (m : Int)).toNat ++ [x0]).length : Nat) : Int) =
          -1 - (((idx0 - 1).toNat : Nat) : Int) := by
        rw [hP]
        omega
      rw [hW]
      simp only [positionsFrom]
      rw [erasePositions_cons, erasePositions_append _ _ _ (positionsFrom_ge _ rest _ hge),
        positionsFrom_sub _ rest _ hge, hc, ih (idx0 - 1).toNat _ xs hlen hb2 hasc.2]
      have ht : (S.take (idx0 - 1 - (m : Int)).toNat).length = (idx0 + (-1 - (m : Int))).toNat := by
        simp only [List.length_take]
        omega
      have e3 : (idx0 + (-1 - (m : Int))).toNat = (idx0 - 1 - (m : Int)).toNat := by omega
      rw [List.append_assoc, List.eraseIdx_append_of_length_le (by omega), ht, Nat.sub_self]
      simp only [List.singleton_append, List.eraseIdx_cons_zero]
      rw [List.take_append_drop]

theorem splitAux_not_mem (sep : Char) (cs : List Char) :
    sep ∉ (splitAux sep cs).1 ∧ ∀ l ∈ (splitAux sep cs).2, sep ∉ l := by
  induction cs with
  | nil => simp [splitAux]
  | cons c t ih =>
    by_cases h : c = sep
    · simp only [splitAux, h, if_true]
      refine ⟨by simp, ?_⟩
      intro l hl
      rcases List.mem_cons.1 hl with rfl | hl
      · exact ih.1
      · exact ih.2 l hl
    · simp only [splitAux, h, if_false]
      refine ⟨?_, ih.2⟩
      intro hmem
      rcases List.mem_cons.1 hmem with h2 | h2
      · exact h h2.symm
      · exact ih.1 h2

/-- No piece of a split holds the separator. -/
theorem Split_not_mem (s : String) (sep : Char) : ∀ l ∈ Split s sep, sep ∉ l.data := by
  intro l hl
  simp only [Split, List.map_cons, List.mem_cons, List.mem_map] at hl
  rcases hl with rfl | ⟨a, ha, rfl⟩
  · exact (splitAux_not_mem sep s.data).1
  · exact (splitAux_not_mem sep s.data).2 a ha

/-- For ascending indices within `[1, n + 1]` the call returns the join of the closed form. -/
theorem InsertLinesAtIndices_eq_weave (text : String) (indices : List Int)
    (newLines : List String) (hlen : newLines.length = indices.length)
    (hasc : indices.Pairwise (· < ·))
    (hb : ∀ idx ∈ indices, 1 ≤ idx ∧ idx ≤ ((Split text '\n').length : Int) + 1) :
    InsertLinesAtIndices text indices newLines =
      Outcome.ok (Join (weave 0 (Split text '\n') indices newLines) "\n") := by
  have h := insertLoop_eq_weave newLines indices 0 0 [] (Split text '\n') rfl hasc
    (fun idx hi => by have := hb idx hi; simp only [Nat.cast_zero]; omega) (by omega)
  have hne : ¬ indices.length ≠ newLines.length := by omega
  simp only [List.nil_append, List.drop_zero] at h
  simp only [InsertLinesAtIndices, hne, if_false, h]

/-- In a strictly ascending list bounded by `b`, only the last entry can be `b`. -/
theorem last_of_eq_bound (idxs : List Int) (b : Int) (hasc : idxs.Pairwise (· < ·))
    (hb : ∀ idx ∈ idxs, idx ≤ b) (j : Nat) (hj : idxs.get? j = some b) :
    j + 1 = idxs.length := by
  have hlt : j < idxs.length := by
    rcases Nat.lt_or_ge j idxs.length with h | h
    · exact h
    · rw [List.get?_eq_none.2 h] at hj
      exact Option.noConfusion hj
  by_contra hne
  have hj2 : j + 1 < idxs.length := by omega
  have h1 := (List.pairwise_iff_getElem.1 hasc) j (j + 1) hlt hj2 (by omega)
  have h2 := hb idxs[j + 1] (List.getElem_mem hj2)
  have h3 : idxs[j] = b := by
    rw [List.get?_eq_getElem?, List.getElem?_eq_getElem hlt] at hj
    exact Option.some.inj hj
  omega

/-- The splice on the slice of lines, for every list of new lines: for strictly ascending
indices in `[1, n + 1]` the call returns the join of a list `L` of `n + |indices|` lines in which
`newLines[i]` is at the 1-based position `indices[i] + i`, followed by the original line
`indices[i]` or last, and from which erasing the inserted positions gives the original lines.
Every element of `L` is an original line or a new line. -/
theorem InsertLinesAtIndices_lines (text : String) (indices : List Int)
    (newLines : List String) (hlen : newLines.length = indices.length)
    (hasc : indices.Pairwise (· < ·))
    (hb : ∀ idx ∈ indices, 1 ≤ idx ∧ idx ≤ ((Split text '\n').length : Int) + 1) :
    ∃ L : List String, InsertLinesAtIndices text indices newLines = Outcome.ok (Join L "\n") ∧
      L.length = (Split text '\n').length + indices.length ∧
      (∀ (i : Nat) (idx : Int) (x : String),
        indices.get? i = some idx → newLines.get? i = some x →
          L.get? (idx - 1 + (i : Int)).toNat = some x ∧
          (idx ≤ ((Split text '\n').length : Int) →
            L.get? (idx + (i : Int)).toNat = (Split text '\n').get? (idx - 1).toNat) ∧
          (idx = ((Split text '\n').length : Int) + 1 → (idx + (i : Int)).toNat = L.length)) ∧
      erasePositions (insertedPositions indices) L = Split text '\n' ∧
      (∀ l ∈ L, l ∈ Split text '\n' ∨ l ∈ newLines) := by
  have hb0 : ∀ idx ∈ indices, ((0 : Nat) : Int) + 1 ≤ idx ∧
      idx ≤ ((0 : Nat) : Int) + ((Split text '\n').length : Nat) + 1 := by
    intro idx hi
    have := hb idx hi
    simp only [Nat.cast_zero]
    omega
  have hWlen := weave_length 0 (Split text '\n') indices newLines hlen hb0 hasc
  refine ⟨_, InsertLinesAtIndices_eq_weave text indices newLines hlen hasc hb, hWlen, ?_, ?_,
    weave_mem _ _ _ _⟩
  · intro i idx x hi hx
    obtain ⟨g1, g2⟩ := weave_get 0 (Split text '\n') indices newLines hlen hb0 hasc i idx x hi hx
    refine ⟨?_, ?_, ?_⟩
    · have e : (idx - 1 + (i : Int)).toNat = (idx - 1 - ((0 : Nat) : Int) + (i : Int)).toNat := by
        omega
      rw [e]
      exact g1
    · intro hle
      have e : (idx + (i : Int)).toNat = (idx - ((0 : Nat) : Int) + (i : Int)).toNat := by omega
      have e2 : (idx - 1).toNat = (idx - 1 - ((0 : Nat) : Int)).toNat := by omega
      rw [e, e2]
      exact g2 (by simp only [Nat.cast_zero]; omega)
    · intro heq
      subst heq
      have hlast := last_of_eq_bound indices _ hasc (fun a ha => (hb a ha).2) i hi
      rw [hWlen]
      omega
  · have e : (-1 : Int) = -1 - ((0 : Nat) : Int) := by simp
    rw [insertedPositions, e]
    exact weave_erase 0 (Split text '\n') indices newLines hlen hb0 hasc

/-- C1, as amended: for every text with `n` lines (split on `"\n"`), every strictly ascending
list of indices each in `[1, n + 1]` and every list `newLines` of the same length none of whose
entries holds a `"\n"`, `InsertLinesAtIndices` succeeds; the result has `n + |indices|` lines;
`newLines[i]` is line `indices[i] + i` of the result (1-based), it is immediately followed by
the original line `indices[i]`, or is the last line when `indices[i] = n + 1`; and removing the
inserted lines gives back the original lines in their order. -/
theorem InsertLinesAtIndices_ascending (text : String) (indices : List Int)
    (newLines : List String) (hlen : newLines.length = indices.length)
    (hasc : indices.Pairwise (· < ·))
    (hb : ∀ idx ∈ indices, 1 ≤ idx ∧ idx ≤ ((Split text '\n').length : Int) + 1)
    (hnl : ∀ x ∈ newLines, '\n' ∉ x.data) :
    ∃ r : String, InsertLinesAtIndices text indices newLines = Outcome.ok r ∧
      (Split r '\n').length = (Split text '\n').length + indices.length ∧
      (∀ (i : Nat) (idx : Int) (x : String),
        indices.get? i = some idx → newLines.get? i = some x →
          (Split r '\n').get? (idx - 1 + (i : Int)).toNat = some x ∧
          (idx ≤ ((Split text '\n').length : Int) →
            (Split r '\n').get? (idx + (i : Int)).toNat =
              (Split text '\n').get? (idx - 1).toNat) ∧
          (idx = ((Split text '\n').length : Int) + 1 →
            (idx + (i : Int)).toNat = (Split r '\n').length)) ∧
      erasePositions (insertedPositions indices) (Split r '\n') = Split text '\n' := by
  obtain ⟨L, hres, hLlen, hget, herase, hmem⟩ :=
    InsertLinesAtIndices_lines text indices newLines hlen hasc hb
  have hLne : L ≠ [] := by
    intro h
    have hp := Split_length_pos text '\n'
    rw [h] at hLlen
    simp only [List.length_nil] at hLlen
    omega
  have hsplit : Split (Join L "\n") '\n' = L := by
    rw [newline_eq]
    refine Split_Join '\n' _ hLne ?_
    intro l hl
    rcases hmem l hl with h | h
    · exact Split_not_mem text '\n' l h
    · exact hnl l h
  refine ⟨_, hres, ?_, ?_, ?_⟩
  · rw [hsplit, hLlen]
  · rw [hsplit]
    exact hget
  · rw [hsplit]
    exact herase

/-- C1 as amended, at the spec's example: "a\nb\nc" with "X" at 1 and "Y" at 2. -/
theorem InsertLinesAtIndices_ascending_witness :
    ∃ r : String, InsertLinesAtIndices "a\nb\nc" [1, 2] ["X", "Y"] = Outcome.ok r ∧
      (Split r '\n').length = (Split "a\nb\nc" '\n').length + [(1 : Int), 2].length ∧
      (∀ (i : Nat) (idx : Int) (x : String),
        [(1 : Int), 2].get? i = some idx → ["X", "Y"].get? i = some x →
          (Split r '\n').get? (idx - 1 + (i : Int)).toNat = some x ∧
          (idx ≤ ((Split "a\nb\nc" '\n').length : Int) →
            (Split r '\n').get? (idx + (i : Int)).toNat =
              (Split "a\nb\nc" '\n').get? (idx - 1).toNat) ∧
          (idx = ((Split "a\nb\nc" '\n').length : Int) + 1 →
            (idx + (i : Int)).toNat = (Split r '\n').length)) ∧
      erasePositions (insertedPositions [1, 2]) (Split r '\n') = Split "a\nb\nc" '\n' :=
  InsertLinesAtIndices_ascending "a\nb\nc" [1, 2] ["X", "Y"] (by decide) (by decide)
    (by decide) (by decide)

/-- C1 as stated fails when a new line holds a `"\n"`: inserting "X\nY" before the only line
of "a" gives "X\nY\na", which has three lines and not `1 + 1`. -/
theorem InsertLinesAtIndices_newline_counterexample :
    InsertLinesAtIndices "a" [1] ["X\nY"] = Outcome.ok "X\nY\na" ∧
      ¬ (∃ r : String, InsertLinesAtIndices "a" [1] ["X\nY"] = Outcome.ok r ∧
        (Split r '\n').length = (Split "a" '\n').length + [(1 : Int)].length ∧
        (Split r '\n').get? 0 = some "X\nY") := by
  have h : InsertLinesAtIndices "a" [1] ["X\nY"] = Outcome.ok "X\nY\na" := by decide
  refine ⟨h, ?_⟩
  rintro ⟨r, hr, hl, _⟩
  rw [h] at hr
  have hr2 : "X\nY\na" = r := Outcome.ok.inj hr
  subst hr2
  revert hl
  decide

/-- The spec's example of the cumulative shift. -/
theorem InsertLinesAtIndices_example :
    InsertLinesAtIndices "a\nb\nc" [1, 2] ["X", "Y"] = Outcome.ok "X\na\nY\nb\nc" := by
  decide

theorem insertLoop_length (new : List String) :
    ∀ (rest : List Int) (i : Nat) (lines L : List String),
      insertLoop new i rest lines = Outcome.ok L → L.length = lines.length + rest.length := by
  intro rest
  induction rest with
  | nil =>
    intro i lines L h
    simp only [insertLoop, Outcome.ok.injEq] at h
    simp [h]
  | cons idx rest ih =>
    intro i lines L h
    rw [insertLoop] at h
    split at h
    · exact Outcome.noConfusion h
    · split at h
      · exact Outcome.noConfusion h
      · rename_i x hx
        split at h
        · exact Outcome.noConfusion h
        · rename_i lines1 hs
          have h1 := ih (i + 1) lines1 L h
          unfold spliceAt at hs
          split at hs
          · have h2 := Option.some.inj hs
            subst h2
            simp only [List.length_append, List.length_cons, List.length_take,
              List.length_drop] at h1 ⊢
            omega
          · exact Option.noConfusion hs

/-- The part of the bounds test that works: with an index outside `[1, n + 1]`, `n` the number
of lines when the loop is at iteration `i` less `i`, the loop returns no list of lines. It ends
with the error or with a panic. -/
theorem insertLoop_out_of_range (new : List String) :
    ∀ (rest : List Int) (i n : Nat) (lines : List String), lines.length = n + i →
      (∃ idx ∈ rest, idx < 1 ∨ (n : Int) + 1 < idx) →
      ∀ L, insertLoop new i rest lines ≠ Outcome.ok L := by
  intro rest
  induction rest with
  | nil =>
    intro i n lines _ h
    obtain ⟨idx, hmem, _⟩ := h
    simp at hmem
  | cons idx0 rest ih =>
    intro i n lines hlen h L hok
    rw [insertLoop] at hok
    split at hok
    · exact Outcome.noConfusion hok
    · rename_i hb
      split at hok
      · exact Outcome.noConfusion hok
      · rename_i x hx
        split at hok
        · exact Outcome.noConfusion hok
        · rename_i lines1 hs
          unfold spliceAt at hs
          split at hs
          · rename_i hk
            have h2 := Option.some.inj hs
            subst h2
            obtain ⟨idx, hmem, hout⟩ := h
            rcases List.mem_cons.1 hmem with rfl | hmem
            · omega
            · refine ih (i + 1) n _ ?_ ⟨idx, hmem, hout⟩ L hok
              simp only [List.length_append, List.length_cons, List.length_take,
                List.length_drop]
              omega
          · exact Option.noConfusion hs

/-- With an index outside `[1, n + 1]` the call never returns a text. -/
theorem InsertLinesAtIndices_out_of_range (file : String) (indices : List Int)
    (linesToInsert : List String)
    (h : ∃ idx ∈ indices, idx < 1 ∨ ((Split file '\n').length : Int) + 1 < idx) :
    ∀ r, InsertLinesAtIndices file indices linesToInsert ≠ Outcome.ok r := by
  intro r hr
  unfold InsertLinesAtIndices at hr
  split at hr
  · exact Outcome.noConfusion hr
  · split at hr
    · rename_i L hL
      exact insertLoop_out_of_range linesToInsert indices 0 (Split file '\n').length _ rfl h L hL
    · exact Outcome.noConfusion hr
    · exact Outcome.noConfusion hr

/-- When every index lies in `[1, n + 1]` and the lengths agree, no slice expression is out of
range: the loop returns a list of lines. -/
theorem insertLoop_in_range (new : List String) :
    ∀ (rest : List Int) (i n : Nat) (lines : List String), lines.length = n + i →
      i + rest.length ≤ new.length →
      (∀ idx ∈ rest, 1 ≤ idx ∧ idx ≤ (n : Int) + 1) →
      ∃ L, insertLoop new i rest lines = Outcome.ok L := by
  intro rest
  induction rest with
  | nil =>
    intro i n lines _ _ _
    exact ⟨lines, rfl⟩
  | cons idx rest ih =>
    intro i n lines hlen hnew hb
    obtain ⟨hlo, hhi⟩ := hb idx (by simp)
    simp only [List.length_cons] at hnew
    have hi : i < new.length := by omega
    have hget : new.get? i = some new[i] := by
      simp [List.get?_eq_getElem?, List.getElem?_eq_getElem hi]
    have hbound : ¬ (idx < 1 ∨ idx > ((lines.length : Nat) : Int) + 1) := by
      rw [hlen]
      push_cast
      omega
    have hk0 : (0 : Int) ≤ idx - 1 + (i : Int) := by omega
    have hk1 : idx - 1 + (i : Int) ≤ ((lines.length : Nat) : Int) := by
      rw [hlen]
      push_cast
      omega
    rw [insertLoop, if_neg hbound, hget]
    simp only []
    rw [spliceAt_of_le _ _ _ hk0 hk1]
    simp only []
    refine ih (i + 1) n _ ?_ (by omega) (fun a ha => hb a (List.mem_cons_of_mem _ ha))
    simp only [List.length_append, List.length_cons, List.length_take, List.length_drop]
    omega

/-- C4: the bounds test reads the length of the growing slice. In the text "a" (one line),
with indices `[1, 3]`, the index `3` exceeds `n + 1 = 2`; the test `3 > len(lines) + 1` is made
after the first insertion, when `len(lines) = 2`, so it passes, and the slice expression
`lines[3:]` is out of range: the call panics instead of returning the out-of-bounds error. -/
theorem InsertLinesAtIndices_bounds_panic :
    ((Split "a" '\n').length : Int) + 1 < 3 ∧
      InsertLinesAtIndices "a" [1, 3] ["X", "Y"] = Outcome.panic ∧
      ¬ (∃ e, InsertLinesAtIndices "a" [1, 3] ["X", "Y"] = Outcome.err e) := by
  have h : InsertLinesAtIndices "a" [1, 3] ["X", "Y"] = Outcome.panic := by decide
  refine ⟨by decide, h, ?_⟩
  rintro ⟨e, he⟩
  rw [h] at he
  exact Outcome.noConfusion he

/-- C10: the call is not total. On the empty text with indices `[1, 2, 4]` the third iteration
passes the bounds test (`4 ≤ len(lines) + 1 = 4`) and then slices `lines[5:]` of a slice of
length 3, which panics: the call returns neither a text nor an error. -/
theorem InsertLinesAtIndices_not_total :
    InsertLinesAtIndices "" [1, 2, 4] ["X", "Y", "Z"] = Outcome.panic ∧
      ¬ (∃ r, InsertLinesAtIndices "" [1, 2, 4] ["X", "Y", "Z"] = Outcome.ok r) ∧
      ¬ (∃ e, InsertLinesAtIndices "" [1, 2, 4] ["X", "Y", "Z"] = Outcome.err e) := by
  have h : InsertLinesAtIndices "" [1, 2, 4] ["X", "Y", "Z"] = Outcome.panic := by decide
  refine ⟨h, ?_, ?_⟩
  · rintro ⟨r, hr⟩
    rw [h] at hr
    exact Outcome.noConfusion hr
  · rintro ⟨e, he⟩
    rw [h] at he
    exact Outcome.noConfusion he

/-! ## sortByScore -/

theorem strictWeak_score :
    StrictWeak (fun a b : MemoryFragment => decide (a.Score > b.Score)) := by
  refine ⟨?_, ?_⟩
  · intro a b h
    simp only [gt_iff_lt, decide_eq_true_eq, decide_eq_false_iff_not] at h ⊢
    omega
  · intro a b c h1 h2
    simp only [gt_iff_lt, decide_eq_false_iff_not] at h1 h2 ⊢
    omega

/-- Insertion sort by "not less the other way round" sorts, for a strict weak ordering. -/
theorem insertionSort_contract (less : MemoryFragment → MemoryFragment → Bool)
    (h : StrictWeak less) (l : List MemoryFragment) :
    (l.insertionSort (fun a b => less b a = false)).Perm l ∧
      (l.insertionSort (fun a b => less b a = false)).Pairwise (fun a b => less b a = false) := by
  haveI : IsTotal MemoryFragment (fun a b => less b a = false) := by
    refine ⟨fun a b => ?_⟩
    cases hba : less b a with
    | false => exact Or.inl rfl
    | true => exact Or.inr (h.1 b a hba)
  haveI : IsTrans MemoryFragment (fun a b => less b a = false) :=
    ⟨fun a b c hab hbc => h.2 c b a hbc hab⟩
  exact ⟨List.perm_insertionSort _ l, List.sorted_insertionSort _ l⟩

theorem sortSliceInsertion_contract : SortSliceContract sortSliceInsertion :=
  fun less h l => insertionSort_contract less h l

theorem assembleResult_eq (result : MemoryFragment) (repoFiles files : List GitFile) :
    assembleResult result repoFiles files =
      files ++ repoFiles.filter (fun f => decide (f.Path = result.ID)) := by
  unfold assembleResult
  induction repoFiles generalizing files with
  | nil => simp
  | cons f t ih =>
    simp only [List.foldl_cons]
    rw [ih]
    by_cases h : f.Path = result.ID
    · simp [h, List.filter_cons]
    · simp [h, List.filter_cons]

theorem foldl_assembleResult (ms : List MemoryFragment) (repoFiles acc : List GitFile) :
    ms.foldl (fun acc result => assembleResult result repoFiles acc) acc =
      acc ++ ms.flatMap (fun m => repoFiles.filter (fun f => decide (f.Path = m.ID))) := by
  induction ms generalizing acc with
  | nil => simp
  | cons m t ih =>
    simp only [List.foldl_cons, List.flatMap_cons]
    rw [ih, assembleResult_eq, List.append_assoc]

/-- The nested loop collects, match by match, every file whose path is the match id. -/
theorem assembleContext_eq (ms : List MemoryFragment) (repoFiles : List GitFile) :
    assembleContext ms repoFiles =
      ms.flatMap (fun m => repoFiles.filter (fun f => decide (f.Path = m.ID))) := by
  unfold assembleContext
  rw [foldl_assembleResult]
  simp

theorem filter_path_of_not_mem (repoFiles : List GitFile) (id : String)
    (h : id ∉ repoFiles.map GitFile.Path) :
    repoFiles.filter (fun f => decide (f.Path = id)) = [] := by
  rw [List.filter_eq_nil_iff]
  intro f hf
  simp only [decide_eq_true_eq]
  intro hp
  exact h (List.mem_map.2 ⟨f, hf, hp⟩)

/-- With pairwise distinct paths, the files of a given path are the first one, if any. -/
theorem filter_path_eq_find (repoFiles : List GitFile)
    (hnd : (repoFiles.map GitFile.Path).Nodup) (id : String) :
    repoFiles.filter (fun f => decide (f.Path = id)) =
      (repoFiles.find? (fun f => decide (f.Path = id))).toList := by
  induction repoFiles with
  | nil => rfl
  | cons f t ih =>
    rw [List.map_cons, List.nodup_cons] at hnd
    by_cases h : f.Path = id
    · have ht : t.filter (fun f => decide (f.Path = id)) = [] :=
        filter_path_of_not_mem t id (h ▸ hnd.1)
      simp [List.filter_cons, List.find?_cons, h, ht]
    · simp [List.filter_cons, List.find?_cons, h, ih hnd.2]

theorem flatMap_toList_eq_filterMap (ms : List MemoryFragment)
    (g : MemoryFragment → Option GitFile) :
    ms.flatMap (fun m => (g m).toList) = ms.filterMap g := by
  induction ms with
  | nil => rfl
  | cons m t ih =>
    rw [List.flatMap_cons, ih, List.filterMap_cons]
    cases g m <;> rfl

/-- C3, as amended: for each match, in match order, the assembler includes every FileRecord
whose path equals the match id, in `AllFiles` order, so several when several share the path.
When the paths of `AllFiles` are pairwise distinct, that is at most one FileRecord per match,
and the context is no longer than the list of matches. -/
theorem assembleContext_all_matching (ms : List MemoryFragment) (repoFiles : List GitFile) :
    assembleContext ms repoFiles =
        ms.flatMap (fun m => repoFiles.filter (fun f => decide (f.Path = m.ID))) ∧
      ((repoFiles.map GitFile.Path).Nodup →
        (∀ m : MemoryFragment,
          (repoFiles.filter (fun f => decide (f.Path = m.ID))).length ≤ 1) ∧
        (assembleContext ms repoFiles).length ≤ ms.length) := by
  refine ⟨assembleContext_eq ms repoFiles, ?_⟩
  intro hnd
  have h1 : ∀ m : MemoryFragment,
      (repoFiles.filter (fun f => decide (f.Path = m.ID))).length ≤ 1 := by
    intro m
    rw [filter_path_eq_find repoFiles hnd]
    cases repoFiles.find? (fun f => decide (f.Path = m.ID)) <;> simp
  refine ⟨h1, ?_⟩
  rw [assembleContext_eq]
  induction ms with
  | nil => simp
  | cons m t ih =>
    rw [List.flatMap_cons, List.length_append, List.length_cons]
    have := h1 m
    omega

/-- C3 as amended, on two files of distinct paths and three matches. -/
theorem assembleContext_all_matching_witness :
    (assembleContext [⟨"b", 3⟩, ⟨"z", 2⟩, ⟨"a", 1⟩] [⟨"a", "A", 1⟩, ⟨"b", "B", 1⟩]).length ≤
      [(⟨"b", 3⟩ : MemoryFragment), ⟨"z", 2⟩, ⟨"a", 1⟩].length :=
  ((assembleContext_all_matching [⟨"b", 3⟩, ⟨"z", 2⟩, ⟨"a", 1⟩]
    [⟨"a", "A", 1⟩, ⟨"b", "B", 1⟩]).2 (by decide)).2

/-- C3 as stated fails: two FileRecords share the path "p"; the single match "p" brings both into
the context, not only the first, and the context is longer than the list of matches. -/
theorem assembleContext_duplicate_counterexample :
    assembleContext [⟨"p", 1⟩] [⟨"p", "first", 1⟩, ⟨"p", "second", 1⟩] =
        [⟨"p", "first", 1⟩, ⟨"p", "second", 1⟩] ∧
      ¬ ((assembleContext [⟨"p", 1⟩] [⟨"p", "first", 1⟩, ⟨"p", "second", 1⟩]).length ≤
        [(⟨"p", 1⟩ : MemoryFragment)].length) := by
  decide

/-- C6: when the paths of the files are pairwise distinct, the assembled context is, in match
order, the file whose path equals each match id, the matches whose id is the path of no file
being skipped; the paths of the context are the match ids that occur as a file path, in match
order. -/
theorem assembleContext_rank_order (ms : List MemoryFragment) (repoFiles : List GitFile)
    (hnd : (repoFiles.map GitFile.Path).Nodup) :
    assembleContext ms repoFiles =
        ms.filterMap (fun m => repoFiles.find? (fun f => decide (f.Path = m.ID))) ∧
      (assembleContext ms repoFiles).map GitFile.Path =
        (ms.map MemoryFragment.ID).filter (fun id => decide (id ∈ repoFiles.map GitFile.Path)) := by
  have h1 : ∀ l : List MemoryFragment, assembleContext l repoFiles =
      l.filterMap (fun m => repoFiles.find? (fun f => decide (f.Path = m.ID))) := by
    intro l
    rw [assembleContext_eq, ← flatMap_toList_eq_filterMap]
    congr 1
    funext m
    exact filter_path_eq_find repoFiles hnd m.ID
  refine ⟨h1 ms, ?_⟩
  rw [h1 ms]
  induction ms with
  | nil => rfl
  | cons m t ih =>
    rw [List.filterMap_cons, List.map_cons, List.filter_cons]
    cases hf : repoFiles.find? (fun f => decide (f.Path = m.ID)) with
    | none =>
      have hnot : m.ID ∉ repoFiles.map GitFile.Path := by
        intro hmem
        obtain ⟨f, hf1, hf2⟩ := List.mem_map.1 hmem
        have := List.find?_eq_none.1 hf f hf1
        simp [hf2] at this
      simp only [hnot, decide_False, Bool.false_eq_true, if_false]
      exact ih
    | some f =>
      have hp : f.Path = m.ID := by
        have := List.find?_some hf
        simpa using this
      have hmem : m.ID ∈ repoFiles.map GitFile.Path :=
        List.mem_map.2 ⟨f, List.mem_of_find?_eq_some hf, hp⟩
      simp only [hmem, decide_True, if_true, List.map_cons, hp]
      rw [ih]

/-- C6 on two files and three matches, one of which names no file. -/
theorem assembleContext_rank_order_witness :
    assembleContext [⟨"b", 3⟩, ⟨"z", 2⟩, ⟨"a", 1⟩] [⟨"a", "A", 1⟩, ⟨"b", "B", 1⟩] =
        [(⟨"b", 3⟩ : MemoryFragment), ⟨"z", 2⟩, ⟨"a", 1⟩].filterMap
          (fun m => [(⟨"a", "A", 1⟩ : GitFile), ⟨"b", "B", 1⟩].find?
            (fun f => decide (f.Path = m.ID))) ∧
      (assembleContext [⟨"b", 3⟩, ⟨"z", 2⟩, ⟨"a", 1⟩] [⟨"a", "A", 1⟩, ⟨"b", "B", 1⟩]).map
          GitFile.Path =
        ([(⟨"b", 3⟩ : MemoryFragment), ⟨"z", 2⟩, ⟨"a", 1⟩].map MemoryFragment.ID).filter
          (fun id => decide (id ∈ [(⟨"a", "A", 1⟩ : GitFile), ⟨"b", "B", 1⟩].map GitFile.Path)) :=
  assembleContext_rank_order [⟨"b", 3⟩, ⟨"z", 2⟩, ⟨"a", 1⟩] [⟨"a", "A", 1⟩, ⟨"b", "B", 1⟩]
    (by decide)

/-! ## The repository branch of the ask command -/

theorem searchAndAsk_none (env : Env) (q : String) (repoFiles : List GitFile)
    (h : env.search q = none) :
    searchAndAsk env q repoFiles =
      [Event.search q, Event.logError "Failed to search memory index", Event.exit 1] := by
  simp [searchAndAsk, h]

/-- After a successful search the index is destroyed at once, and only then is the context
assembled and, when it is not empty, the question asked. -/
theorem searchAndAsk_some (env : Env) (q : String) (repoFiles : List GitFile)
    (results : List MemoryFragment) (h : env.search q = some results) :
    ∃ R, searchAndAsk env q repoFiles = Event.search q :: Event.destroy :: R ∧
      Event.destroy ∉ R ∧
      (∀ fs q2, Event.question fs q2 ∈ R →
        fs = assembleContext (sortByScore env.sortSlice results) repoFiles ∧ fs ≠ []) ∧
      (assembleContext (sortByScore env.sortSlice results) repoFiles = [] →
        R = [Event.logError "No results found.", Event.exit 1]) := by
  by_cases hempty : (assembleContext (sortByScore env.sortSlice results) repoFiles).length = 0
  · refine ⟨[Event.logError "No results found.", Event.exit 1], ?_, ?_, ?_, ?_⟩
    · simp [searchAndAsk, h, hempty]
    · simp
    · intro fs q2 hmem
      simp at hmem
    · intro _
      rfl
  · have hne : assembleContext (sortByScore env.sortSlice results) repoFiles ≠ [] := by
      intro h0
      rw [h0] at hempty
      exact hempty rfl
    cases hq : env.question (assembleContext (sortByScore env.sortSlice results) repoFiles) q with
    | none =>
      refine ⟨[Event.question (assembleContext (sortByScore env.sortSlice results) repoFiles) q,
        Event.logError "Error asking question", Event.exit 1], ?_, ?_, ?_, ?_⟩
      · simp [searchAndAsk, h, hempty, hq]
      · simp
      · intro fs q2 hmem
        simp only [List.mem_cons, Event.question.injEq, List.mem_singleton, reduceCtorEq,
          or_false, List.not_mem_nil] at hmem
        exact ⟨hmem.1, hmem.1 ▸ hne⟩
      · intro h0
        exact absurd h0 hne
    | some answer =>
      refine ⟨[Event.question (assembleContext (sortByScore env.sortSlice results) repoFiles) q,
        Event.println answer], ?_, ?_, ?_, ?_⟩
      · simp [searchAndAsk, h, hempty, hq]
      · simp
      · intro fs q2 hmem
        simp only [List.mem_cons, Event.question.injEq, List.mem_singleton, reduceCtorEq,
          or_false, List.not_mem_nil] at hmem
        exact ⟨hmem.1, hmem.1 ▸ hne⟩
      · intro h0
        exact absurd h0 hne

/-- The indexing loop is a run of `m.Add` calls, followed by the rest of the branch when all of
them succeed and by the error exit at the first that fails. -/
theorem indexFiles_shape (env : Env) (q : String) (repoFiles : List GitFile) :
    ∀ (fs : List GitFile) (k : Nat), ∃ adds : List Event,
      (∀ e ∈ adds, ∃ p c, e = Event.add p c) ∧
      ((addsOk env.addOk k fs = true ∧
          indexFiles env q repoFiles k fs = adds ++ searchAndAsk env q repoFiles) ∨
        (addsOk env.addOk k fs = false ∧
          indexFiles env q repoFiles k fs =
            adds ++ [Event.logError "Error indexing file", Event.exit 1])) := by
  intro fs
  induction fs with
  | nil =>
    intro k
    exact ⟨[], by simp, Or.inl ⟨rfl, rfl⟩⟩
  | cons f t ih =>
    intro k
    by_cases hk : env.addOk k f.Path f.Contents = true
    · obtain ⟨adds, hadds, hcase⟩ := ih (k + 1)
      refine ⟨Event.add f.Path f.Contents :: adds, ?_, ?_⟩
      · intro e he
        rcases List.mem_cons.1 he with rfl | he
        · exact ⟨_, _, rfl⟩
        · exact hadds e he
      · rcases hcase with ⟨h1, h2⟩ | ⟨h1, h2⟩
        · exact Or.inl ⟨by simp [addsOk, hk, h1], by simp [indexFiles, hk, h2]⟩
        · exact Or.inr ⟨by simp [addsOk, hk, h1], by simp [indexFiles, hk, h2]⟩
    · refine ⟨[Event.add f.Path f.Contents], ?_, Or.inr ⟨by simp [addsOk, hk], ?_⟩⟩
      · intro e he
        exact ⟨_, _, List.mem_singleton.1 he⟩
      · simp [indexFiles, hk]

theorem destroy_not_mem_adds (adds : List Event) (h : ∀ e ∈ adds, ∃ p c, e = Event.add p c) :
    Event.destroy ∉ adds := by
  intro hmem
  obtain ⟨p, c, hpc⟩ := h _ hmem
  exact Event.noConfusion hpc

theorem question_not_mem_adds (adds : List Event) (h : ∀ e ∈ adds, ∃ p c, e = Event.add p c)
    (fs : List GitFile) (q : String) : Event.question fs q ∉ adds := by
  intro hmem
  obtain ⟨p, c, hpc⟩ := h _ hmem
  exact Event.noConfusion hpc

/-- The shape of the trace once the index is open: either it holds neither a destroy nor a
question, and the repository load, an add or the search failed; or it is `A ++ destroy :: R`
with all three successful. -/
theorem runRepo_shape (env : Env) (q : String) (hnew : env.newOk = true) :
    (Event.destroy ∉ runRepo env q ∧ (∀ fs q2, Event.question fs q2 ∉ runRepo env q) ∧
        (env.getRepo = none ∨
          (∃ repoFiles, env.getRepo = some repoFiles ∧ addsOk env.addOk 0 repoFiles = false) ∨
          (∃ repoFiles, env.getRepo = some repoFiles ∧ addsOk env.addOk 0 repoFiles = true ∧
            env.search q = none))) ∨
      (∃ repoFiles results A R, env.getRepo = some repoFiles ∧
        addsOk env.addOk 0 repoFiles = true ∧ env.search q = some results ∧
        runRepo env q = A ++ Event.destroy :: R ∧ Event.destroy ∉ A ∧
        (∀ fs q2, Event.question fs q2 ∉ A) ∧ Event.destroy ∉ R ∧
        (∀ fs q2, Event.question fs q2 ∈ R →
          fs = assembleContext (sortByScore env.sortSlice results) repoFiles ∧ fs ≠ []) ∧
        (assembleContext (sortByScore env.sortSlice results) repoFiles = [] →
          R = [Event.logError "No results found.", Event.exit 1])) := by
  cases hrepo : env.getRepo with
  | none =>
    refine Or.inl ⟨?_, ?_, Or.inl rfl⟩
    · simp [runRepo, hnew, hrepo]
    · intro fs q2
      simp [runRepo, hnew, hrepo]
  | some repoFiles =>
    obtain ⟨adds, hadds, hcase⟩ := indexFiles_shape env q repoFiles repoFiles 0
    have hd := destroy_not_mem_adds adds hadds
    have hq := question_not_mem_adds adds hadds
    rcases hcase with ⟨hok, htrace⟩ | ⟨hok, htrace⟩
    · cases hsearch : env.search q with
      | none =>
        refine Or.inl ⟨?_, ?_, Or.inr (Or.inr ⟨repoFiles, rfl, hok, rfl⟩)⟩
        · simp [runRepo, hnew, hrepo, htrace, searchAndAsk_none env q repoFiles hsearch, hd]
        · intro fs q2
          simp [runRepo, hnew, hrepo, htrace, searchAndAsk_none env q repoFiles hsearch, hq]
      | some results =>
        obtain ⟨R, hR, hdR, hqR, heR⟩ := searchAndAsk_some env q repoFiles results hsearch
        refine Or.inr ⟨repoFiles, results,
          Event.memoryNew :: Event.getRepo :: (adds ++ [Event.search q]), R, rfl, hok, rfl,
          ?_, ?_, ?_, hdR, hqR, heR⟩
        · simp [runRepo, hnew, hrepo, htrace, hR]
        · simp [hd]
        · intro fs q2
          simp [hq]
    · refine Or.inl ⟨?_, ?_, Or.inr (Or.inl ⟨repoFiles, rfl, hok⟩)⟩
      · simp [runRepo, hnew, hrepo, htrace, hd]
      · intro fs q2
        simp [runRepo, hnew, hrepo, htrace, hq]

/-- C9: the repository branch never forwards an empty context. Whenever `ai.Question` is
called, its file list is not empty; and when the search succeeds with a result list that is
empty or none of whose ids is the path of a file, the invocation ends with the log line
"No results found." and `os.Exit(1)`, and `ai.Question` is not called. -/
theorem runRepo_no_empty_context (env : Env) (q : String) :
    (∀ fs q2, Event.question fs q2 ∈ runRepo env q → fs ≠ []) ∧
      (∀ repoFiles results, env.newOk = true → env.getRepo = some repoFiles →
        addsOk env.addOk 0 repoFiles = true → env.search q = some results →
        SortSliceContract env.sortSlice →
        (results = [] ∨ ∀ r ∈ results, ∀ f ∈ repoFiles, f.Path ≠ r.ID) →
        (∃ A, runRepo env q =
          A ++ [Event.destroy, Event.logError "No results found.", Event.exit 1]) ∧
        ∀ fs q2, Event.question fs q2 ∉ runRepo env q) := by
  refine ⟨?_, ?_⟩
  · intro fs q2 hmem
    by_cases hnew : env.newOk = true
    · rcases runRepo_shape env q hnew with ⟨_, hq, _⟩ |
        ⟨repoFiles, results, A, R, _, _, _, htrace, _, hqA, _, hqR, _⟩
      · exact absurd hmem (hq fs q2)
      · rw [htrace, List.mem_append, List.mem_cons] at hmem
        rcases hmem with h | h | h
        · exact absurd h (hqA fs q2)
        · exact Event.noConfusion h
        · exact (hqR fs q2 h).2
    · simp [runRepo, hnew] at hmem
  · intro repoFiles results hnew hrepo hadd hsearch hc hnone
    have hempty : assembleContext (sortByScore env.sortSlice results) repoFiles = [] := by
      have hperm := (hc _ strictWeak_score results).1
      rw [assembleContext_eq, List.flatMap_eq_nil_iff]
      intro r hr
      have hr2 : r ∈ results := hperm.mem_iff.1 hr
      rcases hnone with h | h
      · rw [h] at hr2
        simp at hr2
      · rw [List.filter_eq_nil_iff]
        intro f hf
        simpa using h r hr2 f hf
    rcases runRepo_shape env q hnew with ⟨_, _, hfail⟩ |
      ⟨r2, res2, A, R, hrepo2, _, hsearch2, htrace, _, hqA, _, hqR, heR⟩
    · rcases hfail with h | ⟨r2, h1, h2⟩ | ⟨r2, _, _, h3⟩
      · rw [hrepo] at h
        exact Option.noConfusion h
      · rw [hrepo] at h1
        have := Option.some.inj h1
        subst this
        rw [hadd] at h2
        exact Bool.noConfusion h2
      · rw [hsearch] at h3
        exact Option.noConfusion h3
    · rw [hrepo] at hrepo2
      have e1 := Option.some.inj hrepo2
      subst e1
      rw [hsearch] at hsearch2
      have e2 := Option.some.inj hsearch2
      subst e2
      have hR := heR hempty
      subst hR
      refine ⟨⟨A, htrace⟩, ?_⟩
      intro fs q2 hmem
      rw [htrace, List.mem_append, List.mem_cons] at hmem
      rcases hmem with h | h | h
      · exact absurd h (hqA fs q2)
      · exact Event.noConfusion h
      · simp at h

/-- C9 on a run whose only search result names no file. -/
theorem runRepo_no_empty_context_witness :
    (∃ A, runRepo envNoMatch "q" =
        A ++ [Event.destroy, Event.logError "No results found.", Event.exit 1]) ∧
      ∀ fs q2, Event.question fs q2 ∉ runRepo envNoMatch "q" :=
  (runRepo_no_empty_context envNoMatch "q").2 _ _ rfl rfl (by decide) rfl
    sortSliceInsertion_contract (Or.inr (by decide))
